import Mathlib

/-!
# Verification of the whois-bun pattern engine and membership cache

This file gives a shallow embedding of the pattern-grammar engine
(`parsePattern`, `validatePattern`, `validateExtensions`,
`generateCombinations`, `analyzePattern`) and of the membership cache
(`Bitmap`) from `src/lib.ts`, together with theorems settling the frozen
claims about them.

Modelling conventions:
* JavaScript strings are Lean `String`s; `charCodeAt` is modelled by the
  UTF-16 code units of the string (`utf16CodeUnits`).
* `String.prototype.toLowerCase` is modelled characterwise by
  `Char.toLower` (ASCII simple case mapping, which agrees with JS on the
  validator's accepted alphabet).
* JavaScript numbers are IEEE-754 binary64 values.  All numbers arising
  here are nonnegative integers, so a number is modelled as the `Nat` it
  denotes, and each multiplication is followed by `fl53`, the binary64
  rounding of a nonnegative integer (round to nearest, ties to even,
  53-bit significand; faithful below `2 ^ 1024`, far above every value
  reached in this file).
* `Math.random()` draws are abstracted by an oracle `choices : Nat → Nat`;
  the loop index `i` draws `choices i % (i + 1)`, which ranges over exactly
  the values `Math.floor(Math.random() * (i + 1))` can take.
* `JSON.stringify` / `JSON.parse` are modelled as the identity between the
  serialized string and the JSON value it denotes: `serialize` produces the
  JSON value and `deserialize` consumes one.  String-level parse failures
  (`JSON.parse` throwing) are outside the model, as are JSON values outside
  the codec's `{size: number, bits: number[]}` fragment.
-/

namespace WhoisBun

/-- Characterwise `toLowerCase` (simple ASCII case mapping). -/
def lowerString (s : String) : String := ⟨s.data.map Char.toLower⟩

/-- The UTF-16 code units of a string (JS `charCodeAt` / `value.length`
semantics): characters below `0x10000` are one unit, astral characters
split into a surrogate pair. -/
def utf16CodeUnits (s : String) : List Nat :=
  s.data.foldr (fun c acc =>
    if c.toNat < 65536 then c.toNat :: acc
    else (55296 + (c.toNat - 65536) / 1024) :: (56320 + (c.toNat - 65536) % 1024) :: acc) []

/-- JS `str.includes('--')`: some adjacent pair of characters is `-`, `-`. -/
def hasDoubleHyphen (l : List Char) : Bool :=
  (l.zip l.tail).any (fun pair => pair.1 == '-' && pair.2 == '-')

/-- JS regex `/^[0-9]/.test(s)`: the first character is an ASCII digit. -/
def startsWithDigit (s : String) : Bool :=
  match s.data with
  | c :: _ => c.isDigit
  | [] => false

/-- JS `s.startsWith('-')`. -/
def startsWithHyphen (s : String) : Bool := s.data.head? == some '-'

/-- JS `s.endsWith('-')`. -/
def endsWithHyphen (s : String) : Bool := s.data.getLast? == some '-'

/-- JS regex `/[0-9]/.test(s)`: some character is an ASCII digit. -/
def containsDigit (s : String) : Bool := s.data.any Char.isDigit

/-- `'bcdfghjklmnpqrstvwxz'.split('')`. -/
def CONSONANTS : List String :=
  ["b", "c", "d", "f", "g", "h", "j", "k", "l", "m", "n", "p", "q", "r", "s", "t", "v", "w", "x", "z"]

/-- `'aeiou'.split('')`. -/
def VOWELS : List String := ["a", "e", "i", "o", "u"]

/-- `'0123456789'.split('')`. -/
def NUMBERS : List String := ["0", "1", "2", "3", "4", "5", "6", "7", "8", "9"]

/-- `'abcdefghijklmnopqrstuvwxyz'.split('')`. -/
def LETTERS : List String :=
  ["a", "b", "c", "d", "e", "f", "g", "h", "i", "j", "k", "l", "m",
   "n", "o", "p", "q", "r", "s", "t", "u", "v", "w", "x", "y", "z"]

/-- `[...LETTERS, ...'0123456789', '-'].filter(char => char)` — the filter
drops nothing, every one-character string being truthy. -/
def ALL_CHARS : List String := LETTERS ++ NUMBERS ++ ["-"]

/-- One parsed pattern segment.  The source interface marks `value`,
`possibilities` and `isWildcard` optional; `parsePattern` always supplies
`possibilities`, so it is modelled as a plain list. -/
structure PatternPart where
  type : String
  value : Option String := none
  possibilities : List String := []
  isWildcard : Bool := false
deriving Repr, DecidableEq

/-- The `processLiteral` closure of `parsePattern`: flush a pending
literal buffer (lower-cased into its one-element alphabet); flushing an
empty buffer is a no-op. -/
def processLiteral (currentLiteral : String) (parts : List PatternPart) : List PatternPart :=
  if currentLiteral = "" then parts
  else parts ++ [{ type := "literal", value := some currentLiteral,
                   possibilities := [lowerString currentLiteral] }]

/-- The scanning loop of `parsePattern`, threading the pending literal
buffer and the accumulated parts. -/
def parsePatternAux : List Char → String → List PatternPart → List PatternPart
  | [], currentLiteral, parts => processLiteral currentLiteral parts
  | ch :: rest, currentLiteral, parts =>
    let lowerChar := ch.toLower
    if lowerChar = 'c' then
      parsePatternAux rest "" (processLiteral currentLiteral parts ++
        [{ type := "c", possibilities := CONSONANTS }])
    else if lowerChar = 'v' then
      parsePatternAux rest "" (processLiteral currentLiteral parts ++
        [{ type := "v", possibilities := VOWELS }])
    else if lowerChar = 'n' then
      parsePatternAux rest "" (processLiteral currentLiteral parts ++
        [{ type := "n", possibilities := NUMBERS }])
    else if lowerChar = 'l' then
      parsePatternAux rest "" (processLiteral currentLiteral parts ++
        [{ type := "l", possibilities := LETTERS }])
    else if ch = '_' then
      parsePatternAux rest "" (processLiteral currentLiteral parts ++
        [{ type := "wildcard", possibilities := ALL_CHARS, isWildcard := true }])
    else if ch = '-' then
      parsePatternAux rest "" (processLiteral currentLiteral parts ++
        [{ type := "-", possibilities := ["-"] }])
    else
      parsePatternAux rest (currentLiteral.push ch) parts

/-- `parsePattern` from `src/lib.ts`. -/
def parsePattern (pattern : String) : List PatternPart :=
  parsePatternAux pattern.data "" []

/-- The validator's allowed-character set (built in the source as a `Set`
from this very string; `cvnl` repeats characters already present, which a
set ignores). -/
def validCharsList : List Char :=
  ("abcdefghijklmnopqrstuvwxyzABCDEFGHIJKLMNOPQRSTUVWXYZ0123456789-_cvnl").data

/-- `validatePattern` from `src/lib.ts`: `none` means valid, `some err`
is the error message. -/
def validatePattern (pattern : String) : Option String :=
  if pattern = "" then some "Pattern cannot be empty"
  else if pattern.data.contains ' ' then some "Pattern cannot contain spaces"
  else if startsWithHyphen pattern then some "Pattern cannot start with hyphen"
  else if endsWithHyphen pattern then some "Pattern cannot end with hyphen"
  else if hasDoubleHyphen pattern.data then some "Pattern cannot contain consecutive hyphens"
  else
    match pattern.data.find? (fun c => !validCharsList.contains c) with
    | some c => some ("Invalid character in pattern: " ++ String.mk [c])
    | none => none

/-- JS `ext.startsWith('.')`. -/
def startsWithDot (s : String) : Bool := s.data.head? == some '.'

/-- JS regex `/^[.a-z0-9]+$/.test(ext)`: nonempty, and every character is
`.`, a lowercase letter, or a digit (note: the dot may occur anywhere). -/
def extensionFormatOk (ext : String) : Bool :=
  !ext.data.isEmpty && ext.data.all (fun c => c == '.' || c.isLower || c.isDigit)

/-- The per-element loop of `validateExtensions`. -/
def validateExtensionsGo : List String → Option String
  | [] => none
  | ext :: rest =>
    if !startsWithDot ext then some ("Extension must start with dot: " ++ ext)
    else if ext.length < 2 then some ("Extension too short: " ++ ext)
    else if !extensionFormatOk ext then some ("Invalid extension format: " ++ ext)
    else validateExtensionsGo rest

/-- `validateExtensions` from `src/lib.ts`. -/
def validateExtensions (extensions : List String) : Option String :=
  if extensions.isEmpty then some "At least one extension is required"
  else validateExtensionsGo extensions

/-- One JS destructuring swap `[array[i], array[j]] = [array[j], array[i]]`
(identity when an index is out of bounds, which the shuffle never hits). -/
def listSwap (l : List Nat) (i j : Nat) : List Nat :=
  match l[i]?, l[j]? with
  | some a, some b => (l.set i b).set j a
  | _, _ => l

/-- The Fisher–Yates loop of `shuffleArray`, counting `i` down to `1`.
`choices i % (i + 1)` stands for `Math.floor(Math.random() * (i + 1))`,
whose possible values are exactly `0 .. i`. -/
def shuffleIter (choices : Nat → Nat) : Nat → List Nat → List Nat
  | 0, arr => arr
  | i + 1, arr => shuffleIter choices i (listSwap arr (i + 1) (choices (i + 1) % (i + 2)))

/-- `shuffleArray` from `src/lib.ts`, abstracted over the random oracle. -/
def shuffleArray (choices : Nat → Nat) (array : List Nat) : List Nat :=
  shuffleIter choices (array.length - 1) array

/-- The unit one loop step emits: `possibilities[current % possibilities.length]`. -/
def partUnit (part : PatternPart) (current : Nat) : String :=
  part.possibilities.getD (current % part.possibilities.length) ""

/-- The inner decode loop of `generateCombinations` for one shuffled
index: mixed-radix decode (least-significant segment first) with the two
in-flight pruning checks; `none` models `isValid = false` (the `break`). -/
def decodeParts : List PatternPart → Nat → String → String → Option String
  | [], _, result, _ => some result
  | part :: restParts, current, result, lastChar =>
    let char := partUnit part current
    if result.length == 0 && (char == "-" || containsDigit char) then none
    else if char == "-" && lastChar == "-" then none
    else decodeParts restParts (current / part.possibilities.length) (result ++ char) char

/-- Decode one index and apply the trailing checks
(`result.endsWith('-') || /^[0-9]/.test(result)` skips the index). -/
def decodeIndex (patternParts : List PatternPart) (i : Nat) : Option String :=
  (decodeParts patternParts i "" "").bind fun result =>
    if endsWithHyphen result || startsWithDigit result then none else some result

/-- `part.possibilities?.length || 1` (JS `||` turns a `0` length into `1`). -/
def partFactor (part : PatternPart) : Nat :=
  match part.possibilities.length with
  | 0 => 1
  | n => n

/-- The `totalCombinations` reduce of `generateCombinations`. -/
def totalCombinations (patternParts : List PatternPart) : Nat :=
  patternParts.foldl (fun acc part => acc * partFactor part) 1

/-- `generateCombinations` from `src/lib.ts`: shuffle the full index list
`[0, totalCombinations)`, decode each index, and skip pruned ones.  The
lazy generator is modelled as the list of everything it yields. -/
def generateCombinations (patternParts : List PatternPart) (choices : Nat → Nat) : List String :=
  let indices := shuffleArray choices (List.range (totalCombinations patternParts))
  indices.filterMap (decodeIndex patternParts)

/-- Binary length with structural fuel (so the kernel can evaluate it):
`bitLenGo fuel n` is the number of binary digits of `n` whenever
`n < 2 ^ fuel`. -/
def bitLenGo : Nat → Nat → Nat
  | 0, _ => 0
  | fuel + 1, n => if n = 0 then 0 else bitLenGo fuel (n / 2) + 1

/-- Number of binary digits of `n`, exact for every `n < 2 ^ 1100` (far
above the `2 ^ 1024` overflow threshold of binary64). -/
def bitLen (n : Nat) : Nat := bitLenGo 1100 n

/-- IEEE-754 binary64 rounding of a nonnegative integer: round to nearest
with ties to even at 53 significant bits.  Faithful for values below
`2 ^ 1024` (no overflow), which covers every number reached here. -/
def fl53 (n : Nat) : Nat :=
  if bitLen n ≤ 53 then n
  else
    let k := bitLen n - 53
    let q := n / 2 ^ k
    let r := n % 2 ^ k
    if 2 ^ (k - 1) < r ∨ (r = 2 ^ (k - 1) ∧ q % 2 = 1) then (q + 1) * 2 ^ k else q * 2 ^ k

/-- JS `number` multiplication on integer-valued doubles. -/
def flMul (a b : Nat) : Nat := fl53 (a * b)

/-- One line of the pattern file after caller-side processing. -/
structure PatternEntry where
  pattern : String
  extensions : List String
  comment : Option String := none
deriving Repr, DecidableEq

/-- The result record of `analyzePattern`. -/
structure PatternAnalysis where
  pattern : String
  extensions : List String
  combinations : Nat
  totalDomains : Nat
  parts : List PatternPart
  comment : Option String
deriving Repr, DecidableEq

/-- `analyzePattern` from `src/lib.ts`: `PatternAnalysis | string` is
modelled as `Except String PatternAnalysis`.  The two products are JS
double multiplications (`flMul`). -/
def analyzePattern (entry : PatternEntry) : Except String PatternAnalysis :=
  match validatePattern entry.pattern with
  | some validationResult => .error validationResult
  | none =>
    match validateExtensions entry.extensions with
    | some extensionResult => .error extensionResult
    | none =>
      let parts := parsePattern entry.pattern
      let combinations := parts.foldl (fun acc part => flMul acc part.possibilities.length) 1
      let totalDomains := flMul combinations entry.extensions.length
      .ok { pattern := entry.pattern, extensions := entry.extensions,
            combinations := combinations, totalDomains := totalDomains,
            parts := parts, comment := entry.comment }

/-- The exact mathematical product of the parsed segments' alphabet
lengths (what `analyzePattern`'s reduce would compute in unbounded
integer arithmetic). -/
def exactCombinations (parts : List PatternPart) : Nat :=
  parts.foldl (fun acc part => acc * part.possibilities.length) 1

/-- The `combinations` field reported by `analyzePattern`, or `0` on a
validation error. -/
def combinationsOf (entry : PatternEntry) : Nat :=
  match analyzePattern entry with
  | .ok analysis => analysis.combinations
  | .error _ => 0

/-- JS `ToInt32`: wrap an integer to the signed 32-bit range (what
`hash & hash` performs in the source). -/
def toInt32 (n : Int) : Int := (n + 2 ^ 31) % 2 ^ 32 - 2 ^ 31

/-- The membership cache.  `bits` models the `Uint8Array` as its list of
byte values. -/
structure Bitmap where
  size : Nat
  bits : List Nat
deriving Repr, DecidableEq

/-- The `Bitmap` constructor: `ceil(size / 8)` zeroed bytes. -/
def Bitmap.new (size : Nat) : Bitmap :=
  { size := size, bits := List.replicate ((size + 7) / 8) 0 }

/-- The rolling hash loop: `hash = ((hash << 5) - hash) + charCode;
hash = hash & hash` over the UTF-16 code units, starting from `0`.
`hash << 5` on an int32 value is `toInt32 (hash * 32)`; the intermediate
sum is exact in binary64 (magnitude below `2 ^ 33 + 2 ^ 16`); `& ` wraps
it back to int32. -/
def hashCode (value : String) : Int :=
  (utf16CodeUnits value).foldl
    (fun (hash : Int) (c : Nat) => toInt32 (toInt32 (hash * 32) - hash + (c : Int))) 0

/-- `Bitmap.hash`: `Math.abs(hash) % this.size`.  (For `size = 0` the JS
code yields `NaN`; no claim touches that state and Lean's `% 0` is the
identity there.) -/
def Bitmap.hash (b : Bitmap) (value : String) : Nat :=
  (hashCode value).natAbs % b.size

/-- `Bitmap.add`: set bit `hash(value)`.  The stored byte is wrapped to
`Uint8` range as the typed array does. -/
def Bitmap.add (b : Bitmap) (value : String) : Bitmap :=
  let index := b.hash value
  let byteIndex := index / 8
  let bitIndex := index % 8
  { b with bits := b.bits.set byteIndex ((b.bits.getD byteIndex 0 ||| (1 <<< bitIndex)) % 256) }

/-- `Bitmap.test`: `!!(this.bits[byteIndex] & (1 << bitIndex))` (a read
past the end of the typed array yields `undefined`, i.e. bit `0`,
modelled by `getD _ 0`). -/
def Bitmap.test (b : Bitmap) (value : String) : Bool :=
  let index := b.hash value
  let byteIndex := index / 8
  let bitIndex := index % 8
  (b.bits.getD byteIndex 0 &&& (1 <<< bitIndex)) != 0

/-- The fragment of JSON values exercised by the cache codec. -/
inductive Json where
  | num (n : Nat)
  | arr (elems : List Json)
  | obj (members : List (String × Json))

/-- JS property access `parsed.key` on a parsed JSON object. -/
def jsonLookup (members : List (String × Json)) (key : String) : Option Json :=
  (members.find? (fun member => member.1 == key)).map (fun member => member.2)

def jsonNat : Json → Option Nat
  | .num n => some n
  | _ => none

/-- Elementwise numeric read of a JSON array (the element conversion
`new Uint8Array(array)` starts from). -/
def jsonNats : List Json → Option (List Nat)
  | [] => some []
  | j :: rest =>
    match jsonNat j, jsonNats rest with
    | some n, some ns => some (n :: ns)
    | _, _ => none

def jsonNatList : Json → Option (List Nat)
  | .arr elems => jsonNats elems
  | _ => none

/-- `Bitmap.serialize`: `JSON.stringify({ size: this.size, bits: Array.from(this.bits) })`,
modelled as the JSON value that string denotes. -/
def Bitmap.serialize (b : Bitmap) : Json :=
  .obj [("size", .num b.size), ("bits", .arr (b.bits.map Json.num))]

/-- `Bitmap.deserialize` on a parsed JSON value: `new Bitmap(parsed.size)`
followed by `bitmap.bits = new Uint8Array(parsed.bits)`.  A missing `size`
triggers the constructor default `1_000_000`; a missing `bits` makes
`new Uint8Array(undefined)` an empty array; element values are wrapped to
`Uint8` range.  The code performs no validation; `none` marks only inputs
outside the codec's shape (and `JSON.parse` failures live outside the
model entirely). -/
def Bitmap.deserialize (data : Json) : Option Bitmap :=
  match data with
  | .obj members =>
    let sizeVal := match jsonLookup members "size" with
      | none => some 1000000
      | some v => jsonNat v
    let bitsVal := match jsonLookup members "bits" with
      | none => some []
      | some v => jsonNatList v
    match sizeVal, bitsVal with
    | some size, some bits => some { size := size, bits := bits.map (fun byte => byte % 256) }
    | _, _ => none
  | _ => none

/-- Modelled from the spec words of claim C6: the reference hash
`hash = hash * 31 + charCode`, wrapped to signed 32-bit at each step, then
absolute value modulo the capacity. -/
def specHash (value : String) (capacity : Nat) : Nat :=
  ((utf16CodeUnits value).foldl
    (fun (hash : Int) (c : Nat) => toInt32 (hash * 31 + (c : Int))) 0).natAbs % capacity

/-- Modelled from the spec words of claim C8: the regex `^\.[a-z0-9]+$`
(a leading dot, then one or more lowercase letters or digits — no second
dot). -/
def specExtensionRegex (ext : String) : Bool :=
  match ext.data with
  | '.' :: rest => !rest.isEmpty && rest.all (fun c => c.isLower || c.isDigit)
  | _ => false

/-! ### Verification-support definitions (used only to state and prove
invariants of the embedded code, not part of the embedding itself) -/

/-- A well-formed alphabet unit: nonempty, and either exactly `"-"` or
hyphen-free. -/
abbrev unitOk (u : String) : Prop :=
  u.data ≠ [] ∧ (u = "-" ∨ '-' ∉ u.data)

/-- Invariants of every segment `parsePattern` produces: a nonempty,
duplicate-free alphabet of uniform unit length whose units are `unitOk`,
and hyphen-free for literal segments. -/
abbrev GoodPart (part : PatternPart) : Prop :=
  part.possibilities ≠ [] ∧
    part.possibilities.Nodup ∧
    (∀ u ∈ part.possibilities, ∀ v ∈ part.possibilities, u.data.length = v.data.length) ∧
    (∀ u ∈ part.possibilities, unitOk u) ∧
    (part.type = "literal" → ∀ u ∈ part.possibilities, '-' ∉ u.data)

/-- The units the decode loop would emit for index `current`, ignoring
pruning. -/
def unitsOf : List PatternPart → Nat → List String
  | [], _ => []
  | part :: restParts, current =>
    partUnit part current :: unitsOf restParts (current / part.possibilities.length)

/-- The concatenated characters of `unitsOf`. -/
def joinUnits (parts : List PatternPart) (current : Nat) : List Char :=
  ((unitsOf parts current).map String.data).flatten

/-- The exact product of the alphabet lengths (the mixed-radix capacity). -/
def prodLens : List PatternPart → Nat
  | [] => 1
  | part :: restParts => part.possibilities.length * prodLens restParts

/-- All running products of `acc` with the given factors stay strictly
below `2 ^ 53` (the binary64 exact-integer range). -/
def safeProducts : Nat → List Nat → Bool
  | _, [] => true
  | acc, len :: rest => decide (acc * len < 2 ^ 53) && safeProducts (acc * len) rest

example : parsePattern "ccvvnll" = [
    { type := "c", possibilities := CONSONANTS },
    { type := "c", possibilities := CONSONANTS },
    { type := "v", possibilities := VOWELS },
    { type := "v", possibilities := VOWELS },
    { type := "n", possibilities := NUMBERS },
    { type := "l", possibilities := LETTERS },
    { type := "l", possibilities := LETTERS }] := by decide

example : parsePattern "test_" = [
    { type := "literal", value := some "test", possibilities := ["test"] },
    { type := "wildcard", possibilities := ALL_CHARS, isWildcard := true }] := by decide

example : validatePattern "" = some "Pattern cannot be empty" := by decide

example : validatePattern "te--st" = some "Pattern cannot contain consecutive hyphens" := by decide

example : validatePattern "test" = none := by decide

example : validateExtensions [".com"] = none := by decide

example : validateExtensions [".COM"] = some "Invalid extension format: .COM" := by decide

example : validateExtensions [".co.uk"] = none := by decide

example : combinationsOf { pattern := "ll", extensions := [".com", ".net", ".org"] } = 676 := by decide

/-! ## Generic list and bit lemmas -/

theorem getD_set_self {l : List Nat} {i : Nat} (a d : Nat) (h : i < l.length) :
    (l.set i a).getD i d = a := by
  rw [List.getD_eq_getElem?_getD, List.getElem?_set_self h]
  rfl

theorem getD_set_ne {l : List Nat} {i j : Nat} (a d : Nat) (h : i ≠ j) :
    (l.set i a).getD j d = l.getD j d := by
  rw [List.getD_eq_getElem?_getD, List.getElem?_set_ne h, ← List.getD_eq_getElem?_getD]

theorem and_two_pow_ne_zero (x k : Nat) : x &&& 2 ^ k ≠ 0 ↔ x.testBit k = true := by
  rw [Nat.and_two_pow]
  cases h : x.testBit k <;> simp [h, (Nat.two_pow_pos k).ne']

theorem testBit_mod_256 (x k : Nat) (h : k < 8) : (x % 256).testBit k = x.testBit k := by
  have h256 : (256 : Nat) = 2 ^ 8 := by norm_num
  rw [h256, Nat.testBit_mod_two_pow, decide_eq_true h, Bool.true_and]

theorem getD_map_mod (l : List Nat) (i : Nat) :
    (l.map (fun byte => byte % 256)).getD i 0 = l.getD i 0 % 256 := by
  induction l generalizing i with
  | nil => rfl
  | cons a l ih =>
    cases i with
    | zero => rfl
    | succ i => simpa using ih i

/-! ## Bitmap lemmas -/

theorem hash_lt (b : Bitmap) (value : String) (h : 0 < b.size) : b.hash value < b.size :=
  Nat.mod_lt _ h

theorem byteIndex_lt {size len index : Nat} (hlen : len = (size + 7) / 8) (hidx : index < size) :
    index / 8 < len := by
  subst hlen
  have h1 := Nat.div_add_mod (size + 7) 8
  have h2 : (size + 7) % 8 < 8 := Nat.mod_lt _ (by omega)
  have h3 := Nat.div_add_mod index 8
  have h4 : index % 8 < 8 := Nat.mod_lt _ (by omega)
  omega

theorem test_iff_testBit (b : Bitmap) (value : String) :
    b.test value = true ↔ (b.bits.getD (b.hash value / 8) 0).testBit (b.hash value % 8) = true := by
  show ((b.bits.getD (b.hash value / 8) 0 &&& (1 <<< (b.hash value % 8))) != 0) = true ↔ _
  rw [bne_iff_ne, Nat.shiftLeft_eq, one_mul, and_two_pow_ne_zero]

theorem add_size (b : Bitmap) (v : String) : (b.add v).size = b.size := rfl

theorem add_hash (b : Bitmap) (v w : String) : (b.add v).hash w = b.hash w := rfl

theorem add_bits (b : Bitmap) (v : String) :
    (b.add v).bits = b.bits.set (b.hash v / 8)
      ((b.bits.getD (b.hash v / 8) 0 ||| (1 <<< (b.hash v % 8))) % 256) := rfl

theorem test_add_self (b : Bitmap) (v : String) (hcap : 0 < b.size)
    (hlen : b.bits.length = (b.size + 7) / 8) : (b.add v).test v = true := by
  rw [test_iff_testBit, add_hash, add_bits]
  have hJ : b.hash v / 8 < b.bits.length :=
    byteIndex_lt hlen (hash_lt b v hcap)
  rw [getD_set_self _ 0 hJ, Nat.shiftLeft_eq, one_mul,
    testBit_mod_256 _ _ (Nat.mod_lt _ (by omega)), Nat.testBit_or,
    Nat.testBit_two_pow_self, Bool.or_true]

theorem test_mono_add (b : Bitmap) (v w : String) (h : b.test v = true) :
    (b.add w).test v = true := by
  rw [test_iff_testBit] at h
  rw [test_iff_testBit, add_hash, add_bits]
  by_cases hJ : b.hash w / 8 < b.bits.length
  · by_cases hij : b.hash w / 8 = b.hash v / 8
    · rw [← hij] at h ⊢
      rw [getD_set_self _ 0 hJ, Nat.shiftLeft_eq, one_mul,
        testBit_mod_256 _ _ (Nat.mod_lt _ (by omega)), Nat.testBit_or, h, Bool.true_or]
    · rw [getD_set_ne _ 0 hij]
      exact h
  · rw [List.set_eq_of_length_le (Nat.le_of_not_lt hJ)]
    exact h

theorem test_mono_foldl (rest : List String) (b : Bitmap) (v : String) (h : b.test v = true) :
    (rest.foldl Bitmap.add b).test v = true := by
  induction rest generalizing b with
  | nil => exact h
  | cons w ws ih => exact ih _ (test_mono_add b v w h)

theorem jsonNats_map_num (l : List Nat) : jsonNats (l.map Json.num) = some l := by
  induction l with
  | nil => rfl
  | cons n ns ih => simp [jsonNats, jsonNat, ih]

theorem deserialize_serialize (b : Bitmap) :
    Bitmap.deserialize (Bitmap.serialize b) =
      some { size := b.size, bits := b.bits.map (fun byte => byte % 256) } := by
  simp [Bitmap.deserialize, Bitmap.serialize, jsonLookup, List.find?, jsonNat, jsonNatList,
    jsonNats_map_num]

theorem test_map_mod (b : Bitmap) (x : String) :
    (Bitmap.mk b.size (b.bits.map (fun byte => byte % 256))).test x = b.test x := by
  have hk : b.hash x % 8 < 8 := Nat.mod_lt _ (by omega)
  show (((b.bits.map (fun byte => byte % 256)).getD (b.hash x / 8) 0 &&&
      (1 <<< (b.hash x % 8))) != 0) =
    ((b.bits.getD (b.hash x / 8) 0 &&& (1 <<< (b.hash x % 8))) != 0)
  rw [getD_map_mod, Nat.shiftLeft_eq, one_mul, Nat.and_two_pow, Nat.and_two_pow,
    testBit_mod_256 _ _ hk]

/-! ## Claim C4 -/

/-- C4: for every string `s` and every `Bitmap` with positive capacity
(and the data-model byte-array length `ceil(capacity / 8)`), `test s`
returns `true` immediately after `add s`, and remains `true` after any
further sequence of `add` calls with any arguments. -/
theorem bitmap_test_monotone (b : Bitmap) (s : String) (rest : List String)
    (hcap : 0 < b.size) (hlen : b.bits.length = (b.size + 7) / 8) :
    (b.add s).test s = true ∧ (rest.foldl Bitmap.add (b.add s)).test s = true :=
  ⟨test_add_self b s hcap hlen,
    test_mono_foldl rest _ s (test_add_self b s hcap hlen)⟩

/-- Witness for C4 at a concrete bitmap, string and later insertions. -/
theorem bitmap_test_monotone_witness :
    0 < (Bitmap.new 16).size ∧ (Bitmap.new 16).bits.length = ((Bitmap.new 16).size + 7) / 8 ∧
      (((Bitmap.new 16).add "a").test "a" = true ∧
        ((["b", "cd"].foldl Bitmap.add ((Bitmap.new 16).add "a")).test "a" = true)) :=
  ⟨by decide, by decide, bitmap_test_monotone (Bitmap.new 16) "a" ["b", "cd"] (by decide) (by decide)⟩

/-! ## Claim C5 -/

/-- C5: for every `Bitmap` (any capacity, any bit contents, hence any
sequence of prior `add` calls) the serialize/deserialize round trip
succeeds and produces a cache with the same capacity and the same `test`
result on every string. -/
theorem serialize_round_trip (b : Bitmap) (x : String) :
    ∃ b2, Bitmap.deserialize (Bitmap.serialize b) = some b2 ∧
      b2.size = b.size ∧ b2.test x = b.test x :=
  ⟨{ size := b.size, bits := b.bits.map (fun byte => byte % 256) },
    deserialize_serialize b, rfl, test_map_mod b x⟩

/-! ## Claim C6 -/

theorem hashStep_eq (hash c : Int) :
    toInt32 (toInt32 (hash * 32) - hash + c) = toInt32 (hash * 31 + c) := by
  unfold toInt32
  norm_num
  omega

theorem hashCode_eq_spec (value : String) :
    hashCode value = ((utf16CodeUnits value).foldl
      (fun (hash : Int) (c : Nat) => toInt32 (hash * 31 + (c : Int))) 0) := by
  unfold hashCode
  rw [show (fun (hash : Int) (c : Nat) => toInt32 (toInt32 (hash * 32) - hash + (c : Int))) =
    (fun (hash : Int) (c : Nat) => toInt32 (hash * 31 + (c : Int))) from
    funext fun hash => funext fun c => hashStep_eq hash (c : Int)]

/-- C6: the shift-based hash of the code equals the spec's reference
`hash * 31 + charCode` (wrapped to signed 32-bit each step, absolute
value modulo capacity), and lands in `[0, capacity)`. -/
theorem bitmap_hash_refines_spec (b : Bitmap) (value : String) (h : 0 < b.size) :
    b.hash value = specHash value b.size ∧ b.hash value < b.size := by
  constructor
  · unfold Bitmap.hash specHash
    rw [hashCode_eq_spec]
  · exact Nat.mod_lt _ h

/-- Witness for C6 at a concrete string and capacity. -/
theorem bitmap_hash_refines_spec_witness :
    0 < (Bitmap.new 7).size ∧
      ((Bitmap.new 7).hash "ab" = specHash "ab" (Bitmap.new 7).size ∧
        (Bitmap.new 7).hash "ab" < (Bitmap.new 7).size) :=
  ⟨by decide, bitmap_hash_refines_spec (Bitmap.new 7) "ab" (by decide)⟩

/-! ## Claim C7 -/

/-- C7 counterexample: a parsed stream whose `size` field is `0`
(non-positive) does not fail — `deserialize` returns a cache with
capacity `0`. -/
theorem deserialize_accepts_zero_capacity :
    Bitmap.deserialize (Json.obj [("size", Json.num 0), ("bits", Json.arr [])]) =
      some { size := 0, bits := [] } := by decide

/-- C7 amended: `deserialize` validates nothing on a parsed value — a
missing `size` silently becomes the constructor default `1000000`, and
every numeric `size` (including `0`) with a numeric-array `bits` is
accepted as-is (bytes wrapped to `Uint8` range). -/
theorem deserialize_no_validation :
    Bitmap.deserialize (Json.obj [("bits", Json.arr [])]) =
        some { size := 1000000, bits := [] } ∧
      ∀ (s : Nat) (bytes : List Nat),
        Bitmap.deserialize (Json.obj [("size", Json.num s), ("bits", Json.arr (bytes.map Json.num))]) =
          some { size := s, bits := bytes.map (fun byte => byte % 256) } :=
  ⟨by decide, fun s bytes => deserialize_serialize { size := s, bits := bytes }⟩

/-! ## Shuffle permutation lemmas -/

theorem cons_set_perm {xs : List Nat} {m b : Nat} (x : Nat) (h : xs[m]? = some b) :
    (b :: xs.set m x).Perm (x :: xs) := by
  induction xs generalizing m with
  | nil => simp at h
  | cons y t ih =>
    cases m with
    | zero =>
      have hyb : y = b := by simpa using h
      subst hyb
      exact List.Perm.swap x y t
    | succ m =>
      have hm : t[m]? = some b := by simpa using h
      exact (List.Perm.swap y b _).trans (((ih hm).cons y).trans (List.Perm.swap x y t))

theorem set_set_swap_perm (l : List Nat) (i j : Nat) {a b : Nat}
    (hi : l[i]? = some a) (hj : l[j]? = some b) :
    ((l.set i b).set j a).Perm l := by
  induction l generalizing i j with
  | nil => simp at hi
  | cons x t ih =>
    cases i with
    | zero =>
      have hxa : x = a := by simpa using hi
      subst hxa
      cases j with
      | zero =>
        have hxb : x = b := by simpa using hj
        subst hxb
        simp
      | succ m =>
        have hm : t[m]? = some b := by simpa using hj
        exact cons_set_perm x hm
    | succ n =>
      have hn : t[n]? = some a := by simpa using hi
      cases j with
      | zero =>
        have hxb : x = b := by simpa using hj
        subst hxb
        exact cons_set_perm x hn
      | succ m =>
        have hm : t[m]? = some b := by simpa using hj
        exact (ih n m hn hm).cons x

theorem listSwap_perm (l : List Nat) (i j : Nat) : (listSwap l i j).Perm l := by
  unfold listSwap
  cases hi : l[i]? with
  | none => exact List.Perm.refl l
  | some a =>
    cases hj : l[j]? with
    | none => exact List.Perm.refl l
    | some b => exact set_set_swap_perm l i j hi hj

theorem shuffleIter_perm (choices : Nat → Nat) (n : Nat) (l : List Nat) :
    (shuffleIter choices n l).Perm l := by
  induction n generalizing l with
  | zero => exact List.Perm.refl l
  | succ n ih =>
    exact (ih _).trans (listSwap_perm l (n + 1) (choices (n + 1) % (n + 2)))

theorem shuffleArray_perm (choices : Nat → Nat) (l : List Nat) :
    (shuffleArray choices l).Perm l :=
  shuffleIter_perm choices (l.length - 1) l

/-! ## Parser invariants -/

theorem toLower_eq_hyphen {c : Char} (h : c.toLower = '-') : c = '-' := by
  have h' : (if c.toNat ≥ 65 ∧ c.toNat ≤ 90 then Char.ofNat (c.toNat + 32) else c) = '-' := h
  split at h'
  · exfalso
    rename_i hcond
    have hv : (c.toNat + 32).isValidChar := Or.inl (by omega)
    have htn : (Char.ofNat (c.toNat + 32)).toNat = c.toNat + 32 := by
      rw [Char.ofNat, dif_pos hv]
      simp [Char.ofNatAux, Char.toNat, UInt32.toNat, BitVec.toNat_ofNatLt]
    rw [h'] at htn
    have h45 : ('-').toNat = 45 := by decide
    omega
  · exact h'

theorem data_ne_nil_of_ne_empty {s : String} (h : s ≠ "") : s.data ≠ [] := by
  intro hd
  exact h (String.ext hd)

theorem lowerString_no_hyphen {s : String} (h : '-' ∉ s.data) :
    '-' ∉ (lowerString s).data := by
  intro hmem
  obtain ⟨c, hc, hlc⟩ := List.mem_map.mp hmem
  exact h (toLower_eq_hyphen hlc ▸ hc)

theorem goodPart_literal (cur : String) (hne : cur ≠ "") (hnh : '-' ∉ cur.data) :
    GoodPart { type := "literal", value := some cur,
               possibilities := [lowerString cur] } := by
  have hdata : (lowerString cur).data ≠ [] := by
    show cur.data.map Char.toLower ≠ []
    simpa using data_ne_nil_of_ne_empty hne
  have hlow := lowerString_no_hyphen hnh
  refine ⟨by simp, List.nodup_singleton _, ?_, ?_, ?_⟩
  · intro u hu v hv
    rw [List.mem_singleton.mp hu, List.mem_singleton.mp hv]
  · intro u hu
    rw [List.mem_singleton.mp hu]
    exact ⟨hdata, Or.inr hlow⟩
  · intro _ u hu
    rw [List.mem_singleton.mp hu]
    exact hlow

theorem processLiteral_good (cur : String) (parts : List PatternPart)
    (hcur : '-' ∉ cur.data) (hparts : ∀ part ∈ parts, GoodPart part) :
    ∀ part ∈ processLiteral cur parts, GoodPart part := by
  unfold processLiteral
  split
  · exact hparts
  · intro part hp
    rcases List.mem_append.mp hp with hin | hin
    · exact hparts part hin
    · rw [List.mem_singleton.mp hin]
      exact goodPart_literal cur (by assumption) hcur

theorem parsePatternAux_good (chars : List Char) (cur : String) (parts : List PatternPart)
    (hcur : '-' ∉ cur.data) (hparts : ∀ part ∈ parts, GoodPart part) :
    ∀ part ∈ parsePatternAux chars cur parts, GoodPart part := by
  induction chars generalizing cur parts with
  | nil => exact processLiteral_good cur parts hcur hparts
  | cons ch rest ih =>
    show ∀ part ∈ parsePatternAux (ch :: rest) cur parts, GoodPart part
    rw [parsePatternAux]
    have happend : ∀ (q : PatternPart), GoodPart q →
        ∀ part ∈ processLiteral cur parts ++ [q], GoodPart part := by
      intro q hq part hp
      rcases List.mem_append.mp hp with hin | hin
      · exact processLiteral_good cur parts hcur hparts part hin
      · rw [List.mem_singleton.mp hin]
        exact hq
    split_ifs with h1 h2 h3 h4 h5 h6
    · exact ih "" _ (by simp) (happend _ (by decide))
    · exact ih "" _ (by simp) (happend _ (by decide))
    · exact ih "" _ (by simp) (happend _ (by decide))
    · exact ih "" _ (by simp) (happend _ (by decide))
    · exact ih "" _ (by simp) (happend _ (by decide))
    · exact ih "" _ (by simp) (happend _ (by decide))
    · refine ih (cur.push ch) parts ?_ hparts
      intro hmem
      rw [String.data_push cur ch] at hmem
      rcases List.mem_append.mp hmem with hin | hin
      · exact hcur hin
      · exact h6 (List.mem_singleton.mp hin).symm

theorem parsePattern_good (p : String) : ∀ part ∈ parsePattern p, GoodPart part :=
  parsePatternAux_good p.data "" [] (by simp) (by simp)

/-! ## Decode lemmas -/

theorem partUnit_mem (part : PatternPart) (current : Nat) (h : part.possibilities ≠ []) :
    partUnit part current ∈ part.possibilities := by
  unfold partUnit
  have hlen : 0 < part.possibilities.length := List.length_pos.mpr h
  have hidx : current % part.possibilities.length < part.possibilities.length :=
    Nat.mod_lt _ hlen
  rw [List.getD_eq_getElem _ _ hidx]
  exact List.getElem_mem hidx

theorem decodeParts_cons (part : PatternPart) (restParts : List PatternPart)
    (current : Nat) (result lastChar : String) :
    decodeParts (part :: restParts) current result lastChar =
      if result.length == 0 &&
          (partUnit part current == "-" || containsDigit (partUnit part current)) then none
      else if partUnit part current == "-" && lastChar == "-" then none
      else decodeParts restParts (current / part.possibilities.length)
        (result ++ partUnit part current) (partUnit part current) := rfl

theorem decodeParts_data (parts : List PatternPart) (current : Nat) (res last r : String)
    (h : decodeParts parts current res last = some r) :
    r.data = res.data ++ joinUnits parts current := by
  induction parts generalizing current res last with
  | nil =>
    have hr : res = r := by simpa [decodeParts] using h
    subst hr
    simp [joinUnits, unitsOf]
  | cons part restParts ih =>
    rw [decodeParts_cons] at h
    split_ifs at h with h1 h2
    rw [ih _ _ _ h, String.data_append]
    simp [joinUnits, unitsOf]

theorem hasDoubleHyphen_cons₂ (c1 c2 : Char) (rest : List Char) :
    hasDoubleHyphen (c1 :: c2 :: rest) =
      ((c1 == '-' && c2 == '-') || hasDoubleHyphen (c2 :: rest)) := rfl

theorem hasDoubleHyphen_not_mem {l : List Char} (h : '-' ∉ l) :
    hasDoubleHyphen l = false := by
  unfold hasDoubleHyphen
  rw [List.any_eq_false]
  rintro ⟨a, b⟩ hmem
  have ha : a ∈ l := (List.of_mem_zip hmem).1
  have hane : a ≠ '-' := fun hh => h (hh ▸ ha)
  simp [hane]

theorem hasDoubleHyphen_append (a b : List Char)
    (ha : hasDoubleHyphen a = false) (hb : hasDoubleHyphen b = false)
    (hj : ¬(a.getLast? = some '-' ∧ b.head? = some '-')) :
    hasDoubleHyphen (a ++ b) = false := by
  induction a with
  | nil => simpa using hb
  | cons c rest ih =>
    cases rest with
    | nil =>
      cases b with
      | nil => rfl
      | cons d bs =>
        rw [show (([c] : List Char) ++ d :: bs) = c :: d :: bs from rfl, hasDoubleHyphen_cons₂]
        have hcd : ¬(c = '-' ∧ d = '-') := by
          intro hpair
          exact hj ⟨by simp [hpair.1], by simp [hpair.2]⟩
        have hfirst : (c == '-' && d == '-') = false := by
          by_cases hc : c = '-'
          · by_cases hd : d = '-'
            · exact absurd ⟨hc, hd⟩ hcd
            · simp [hd]
          · simp [hc]
        rw [hfirst, Bool.false_or]
        exact hb
    | cons c2 rest2 =>
      rw [show ((c :: c2 :: rest2) ++ b) = c :: c2 :: (rest2 ++ b) from rfl,
        hasDoubleHyphen_cons₂]
      rw [hasDoubleHyphen_cons₂] at ha
      obtain ⟨h1, h2⟩ := Bool.or_eq_false_iff.mp ha
      rw [h1, Bool.false_or]
      exact ih h2 (fun hpair => hj ⟨by rw [List.getLast?_cons_cons]; exact hpair.1, hpair.2⟩)

theorem decodeParts_head_not_hyphen (parts : List PatternPart)
    (hG : ∀ part ∈ parts, GoodPart part) (current : Nat) (r : String)
    (h : decodeParts parts current "" "" = some r) :
    r.data.head? ≠ some '-' := by
  cases parts with
  | nil =>
    have hr : ("" : String) = r := by simpa [decodeParts] using h
    rw [← hr]
    simp
  | cons part restParts =>
    rw [decodeParts_cons] at h
    split_ifs at h with h1 h2
    have hgood := hG part (List.mem_cons_self _ _)
    have hu : partUnit part current ∈ part.possibilities := partUnit_mem part current hgood.1
    have hunit : unitOk (partUnit part current) := hgood.2.2.2.1 _ hu
    have hne : partUnit part current ≠ "-" := by
      intro heq
      exact h1 (by simp [heq])
    have hnohyp : '-' ∉ (partUnit part current).data := hunit.2.resolve_left hne
    rw [decodeParts_data _ _ _ _ _ h, String.data_append]
    rw [show ("" : String).data = ([] : List Char) from rfl, List.nil_append,
      List.head?_append_of_ne_nil _ hunit.1]
    intro hhead
    exact hnohyp (List.mem_of_mem_head? (Option.mem_def.mpr hhead))

theorem decodeParts_no_double (parts : List PatternPart)
    (hG : ∀ part ∈ parts, GoodPart part) (current : Nat) (res last r : String)
    (hres : hasDoubleHyphen res.data = false)
    (hlast : res.data.getLast? = some '-' → last = "-")
    (h : decodeParts parts current res last = some r) :
    hasDoubleHyphen r.data = false := by
  induction parts generalizing current res last with
  | nil =>
    have hr : res = r := by simpa [decodeParts] using h
    exact hr ▸ hres
  | cons part restParts ih =>
    rw [decodeParts_cons] at h
    split_ifs at h with h1 h2
    have hgood := hG part (List.mem_cons_self _ _)
    have hu : partUnit part current ∈ part.possibilities := partUnit_mem part current hgood.1
    have hunit : unitOk (partUnit part current) := hgood.2.2.2.1 _ hu
    have hufalse : hasDoubleHyphen (partUnit part current).data = false := by
      rcases hunit.2 with heq | hnm
      · rw [heq]
        rfl
      · exact hasDoubleHyphen_not_mem hnm
    refine ih (fun q hq => hG q (List.mem_cons_of_mem _ hq)) _ _ _ ?_ ?_ h
    · rw [String.data_append]
      refine hasDoubleHyphen_append _ _ hres hufalse ?_
      rintro ⟨hl, hh⟩
      have hlastd : last = "-" := hlast hl
      have humem : '-' ∈ (partUnit part current).data :=
        List.mem_of_mem_head? (Option.mem_def.mpr hh)
      have hud : partUnit part current = "-" :=
        hunit.2.resolve_right (fun hnm => hnm humem)
      exact h2 (by simp [hud, hlastd])
    · intro hl
      rw [String.data_append, List.getLast?_append] at hl
      cases hg : (partUnit part current).data.getLast? with
      | none => exact absurd (List.getLast?_eq_none_iff.mp hg) hunit.1
      | some x =>
        rw [hg] at hl
        have hx : x = '-' := by simpa using hl
        subst hx
        have humem : '-' ∈ (partUnit part current).data :=
          List.mem_of_mem_getLast? (Option.mem_def.mpr hg)
        exact hunit.2.resolve_right (fun hnm => hnm humem)

theorem decodeIndex_some (parts : List PatternPart) (i : Nat) (r : String)
    (h : decodeIndex parts i = some r) :
    decodeParts parts i "" "" = some r ∧
      endsWithHyphen r = false ∧ startsWithDigit r = false := by
  unfold decodeIndex at h
  cases hd : decodeParts parts i "" "" with
  | none =>
    rw [hd] at h
    simp at h
  | some res =>
    rw [hd, Option.some_bind] at h
    split_ifs at h with hfin
    have hr : res = r := by simpa using h
    subst hr
    have hbool : (endsWithHyphen res || startsWithDigit res) = false :=
      Bool.eq_false_iff.mpr hfin
    obtain ⟨he, hs⟩ := Bool.or_eq_false_iff.mp hbool
    exact ⟨rfl, he, hs⟩

theorem generateCombinations_eq (patternParts : List PatternPart) (choices : Nat → Nat) :
    generateCombinations patternParts choices =
      (shuffleArray choices (List.range (totalCombinations patternParts))).filterMap
        (decodeIndex patternParts) := rfl

/-! ## Claim C1 -/

/-- C1: every candidate emitted by `generateCombinations (parsePattern p)`
(for any pattern `p` and any outcome of the random draws) does not start
with a hyphen, does not start with a digit, contains no `--`, and does not
end with a hyphen. -/
theorem generated_candidates_pruned (p : String) (choices : Nat → Nat) (c : String)
    (hc : c ∈ generateCombinations (parsePattern p) choices) :
    startsWithHyphen c = false ∧ startsWithDigit c = false ∧
      hasDoubleHyphen c.data = false ∧ endsWithHyphen c = false := by
  rw [generateCombinations_eq] at hc
  obtain ⟨i, hi, hdec⟩ := List.mem_filterMap.mp hc
  obtain ⟨hdp, hend, hdig⟩ := decodeIndex_some _ _ _ hdec
  have hG := parsePattern_good p
  refine ⟨?_, hdig, ?_, hend⟩
  · exact beq_eq_false_iff_ne.mpr (decodeParts_head_not_hyphen _ hG _ _ hdp)
  · exact decodeParts_no_double _ hG _ "" "" _ rfl (by simp) hdp

/-- Witness for C1: the candidate `"a"` emitted for pattern `"v"`. -/
theorem generated_candidates_pruned_witness :
    ("a" ∈ generateCombinations (parsePattern "v") (fun _ => 0)) ∧
      (startsWithHyphen "a" = false ∧ startsWithDigit "a" = false ∧
        hasDoubleHyphen "a".data = false ∧ endsWithHyphen "a" = false) :=
  ⟨by decide, generated_candidates_pruned "v" (fun _ => 0) "a" (by decide)⟩

/-! ## Claim C2 -/

theorem joinUnits_inj (parts : List PatternPart) (hG : ∀ part ∈ parts, GoodPart part)
    (i j : Nat) (hi : i < prodLens parts) (hj : j < prodLens parts)
    (hjoin : joinUnits parts i = joinUnits parts j) : i = j := by
  induction parts generalizing i j with
  | nil =>
    simp [prodLens] at hi hj
    omega
  | cons part restParts ih =>
    have hgood := hG part (List.mem_cons_self _ _)
    have hlen : 0 < part.possibilities.length := List.length_pos.mpr hgood.1
    have hui : partUnit part i ∈ part.possibilities := partUnit_mem _ _ hgood.1
    have huj : partUnit part j ∈ part.possibilities := partUnit_mem _ _ hgood.1
    have hlens : (partUnit part i).data.length = (partUnit part j).data.length :=
      hgood.2.2.1 _ hui _ huj
    have hcons : (partUnit part i).data ++ joinUnits restParts (i / part.possibilities.length) =
        (partUnit part j).data ++ joinUnits restParts (j / part.possibilities.length) := by
      simpa [joinUnits, unitsOf] using hjoin
    obtain ⟨hu_eq, hrest_eq⟩ := List.append_inj hcons hlens
    have hgi : i % part.possibilities.length < part.possibilities.length := Nat.mod_lt _ hlen
    have hgj : j % part.possibilities.length < part.possibilities.length := Nat.mod_lt _ hlen
    have hdigit : i % part.possibilities.length = j % part.possibilities.length := by
      have hstr : partUnit part i = partUnit part j := String.ext hu_eq
      unfold partUnit at hstr
      rw [List.getD_eq_getElem _ _ hgi, List.getD_eq_getElem _ _ hgj] at hstr
      exact (hgood.2.1.getElem_inj_iff).mp hstr
    have hbound_i : i / part.possibilities.length < prodLens restParts := by
      rw [Nat.div_lt_iff_lt_mul hlen]
      calc i < prodLens (part :: restParts) := hi
        _ = part.possibilities.length * prodLens restParts := rfl
        _ = prodLens restParts * part.possibilities.length := Nat.mul_comm _ _
    have hbound_j : j / part.possibilities.length < prodLens restParts := by
      rw [Nat.div_lt_iff_lt_mul hlen]
      calc j < prodLens (part :: restParts) := hj
        _ = part.possibilities.length * prodLens restParts := rfl
        _ = prodLens restParts * part.possibilities.length := Nat.mul_comm _ _
    have hdiv := ih (fun q hq => hG q (List.mem_cons_of_mem _ hq)) _ _ hbound_i hbound_j hrest_eq
    calc i = part.possibilities.length * (i / part.possibilities.length) +
          i % part.possibilities.length := (Nat.div_add_mod i part.possibilities.length).symm
      _ = part.possibilities.length * (j / part.possibilities.length) +
          j % part.possibilities.length := by rw [hdiv, hdigit]
      _ = j := Nat.div_add_mod j part.possibilities.length

theorem decodeIndex_inj (parts : List PatternPart) (hG : ∀ part ∈ parts, GoodPart part)
    {i j : Nat} (hi : i < prodLens parts) (hj : j < prodLens parts) {r : String}
    (h1 : decodeIndex parts i = some r) (h2 : decodeIndex parts j = some r) : i = j := by
  obtain ⟨hd1, -, -⟩ := decodeIndex_some _ _ _ h1
  obtain ⟨hd2, -, -⟩ := decodeIndex_some _ _ _ h2
  have e1 := decodeParts_data _ _ _ _ _ hd1
  have e2 := decodeParts_data _ _ _ _ _ hd2
  exact joinUnits_inj parts hG i j hi hj (by simpa using e1.symm.trans e2)

theorem nodup_filterMap_decode (parts : List PatternPart)
    (hG : ∀ part ∈ parts, GoodPart part) (l : List Nat) (hl : l.Nodup)
    (hmem : ∀ x ∈ l, x < prodLens parts) :
    (l.filterMap (decodeIndex parts)).Nodup := by
  induction l with
  | nil => simp
  | cons a t ih =>
    obtain ⟨ha, ht⟩ := List.nodup_cons.mp hl
    cases hfa : decodeIndex parts a with
    | none =>
      simp only [List.filterMap_cons, hfa]
      exact ih ht (fun x hx => hmem x (List.mem_cons_of_mem a hx))
    | some r =>
      simp only [List.filterMap_cons, hfa]
      rw [List.nodup_cons]
      refine ⟨?_, ih ht (fun x hx => hmem x (List.mem_cons_of_mem a hx))⟩
      intro hr
      obtain ⟨b, hb, hfb⟩ := List.mem_filterMap.mp hr
      have hab : a = b := decodeIndex_inj parts hG (hmem a (List.mem_cons_self a t))
        (hmem b (List.mem_cons_of_mem a hb)) hfa hfb
      exact ha (hab ▸ hb)

theorem partFactor_eq (part : PatternPart) (h : part.possibilities ≠ []) :
    partFactor part = part.possibilities.length := by
  unfold partFactor
  cases hl : part.possibilities.length with
  | zero => exact absurd (List.length_eq_zero.mp hl) h
  | succ n => rfl

theorem foldl_partFactor (parts : List PatternPart) (hG : ∀ part ∈ parts, GoodPart part)
    (acc : Nat) :
    parts.foldl (fun a part => a * partFactor part) acc = acc * prodLens parts := by
  induction parts generalizing acc with
  | nil => simp [prodLens]
  | cons part restParts ih =>
    rw [List.foldl_cons, ih (fun q hq => hG q (List.mem_cons_of_mem _ hq)),
      partFactor_eq part (hG part (List.mem_cons_self _ _)).1]
    show acc * part.possibilities.length * prodLens restParts =
      acc * (part.possibilities.length * prodLens restParts)
    ring

theorem totalCombinations_eq_prodLens (parts : List PatternPart)
    (hG : ∀ part ∈ parts, GoodPart part) :
    totalCombinations parts = prodLens parts := by
  unfold totalCombinations
  rw [foldl_partFactor parts hG 1, Nat.one_mul]

/-- C2: for every pattern and every outcome of the random draws, the
shuffle returns a permutation of its input (in particular of the full
index range, so each index is decoded at most once and pruned indices are
skipped), and the emitted list has no duplicate base string and at most
`totalCombinations` elements. -/
theorem generation_nodup_and_bounded (p : String) (choices : Nat → Nat) :
    (∀ l : List Nat, (shuffleArray choices l).Perm l) ∧
      (shuffleArray choices (List.range (totalCombinations (parsePattern p)))).Perm
        (List.range (totalCombinations (parsePattern p))) ∧
      (generateCombinations (parsePattern p) choices).Nodup ∧
      (generateCombinations (parsePattern p) choices).length ≤
        totalCombinations (parsePattern p) := by
  have hG := parsePattern_good p
  have hperm := shuffleArray_perm choices (List.range (totalCombinations (parsePattern p)))
  refine ⟨shuffleArray_perm choices, hperm, ?_, ?_⟩
  · rw [generateCombinations_eq]
    refine nodup_filterMap_decode _ hG _ (hperm.nodup_iff.mpr (List.nodup_range _)) ?_
    intro x hx
    have hx2 := List.mem_range.mp (hperm.mem_iff.mp hx)
    rwa [totalCombinations_eq_prodLens _ hG] at hx2
  · rw [generateCombinations_eq]
    calc ((shuffleArray choices (List.range (totalCombinations (parsePattern p)))).filterMap
          (decodeIndex (parsePattern p))).length
        ≤ (shuffleArray choices (List.range (totalCombinations (parsePattern p)))).length :=
          List.length_filterMap_le _ _
      _ = totalCombinations (parsePattern p) := by rw [hperm.length_eq, List.length_range]

/-! ## Claims C9 and C10 -/

theorem startsWithDigit_false_of_not_contains {s : String} (h : containsDigit s = false) :
    startsWithDigit s = false := by
  unfold containsDigit at h
  unfold startsWithDigit
  cases hd : s.data with
  | nil => rfl
  | cons c rest =>
    rw [hd] at h
    rw [List.any_cons, Bool.or_eq_false_iff] at h
    exact h.1

theorem endsWithHyphen_false_of_not_mem {s : String} (h : '-' ∉ s.data) :
    endsWithHyphen s = false := by
  unfold endsWithHyphen
  rw [beq_eq_false_iff_ne]
  intro hl
  exact h (List.mem_of_mem_getLast? (Option.mem_def.mpr hl))

/-- C9 counterexample: `"1a"` parses to a single literal whose text starts
with a digit, yet the generator emits nothing (the claim says the decoded
candidate is still emitted). -/
theorem literal_leading_digit_generates_nothing :
    parsePattern "1a" =
        [{ type := "literal", value := some "1a", possibilities := ["1a"] }] ∧
      generateCombinations (parsePattern "1a") (fun _ => 0) = [] :=
  ⟨by decide, by decide⟩

/-- C9 amended: a first-segment literal is pruned as one atomic unit — if
its text contains no digit it is emitted whole (bypassing per-character
pruning), but if it contains a digit anywhere (in particular a leading
digit, and literals can never contain a hyphen) the whole-unit digit test
rejects it and nothing is generated. -/
theorem literal_atomic_pruning (p : String) (choices : Nat → Nat) (v w : String)
    (hp : parsePattern p =
      [{ type := "literal", value := some v, possibilities := [w] }]) :
    (containsDigit w = false → generateCombinations (parsePattern p) choices = [w]) ∧
      (containsDigit w = true → generateCombinations (parsePattern p) choices = []) := by
  have hG := parsePattern_good p
  rw [hp] at hG
  rw [hp]
  have hgood := hG _ (List.mem_cons_self _ _)
  have hnh : '-' ∉ w.data := hgood.2.2.2.2 rfl w (List.mem_cons_self _ _)
  have hwne : w.data ≠ [] := (hgood.2.2.2.1 w (List.mem_cons_self _ _)).1
  have hne : w ≠ "-" := by
    intro heq
    apply hnh
    rw [heq]
    decide
  constructor
  · intro hdig
    rw [generateCombinations_eq]
    have hdecode : decodeIndex
        [({ type := "literal", value := some v, possibilities := [w] } : PatternPart)] 0 =
          some w := by
      unfold decodeIndex
      have hparts : decodeParts
          [({ type := "literal", value := some v, possibilities := [w] } : PatternPart)]
            0 "" "" = some w := by
        rw [decodeParts_cons]
        rw [if_neg (by simp [hne, hdig, partUnit, Nat.mod_one]), if_neg (by simp [partUnit, Nat.mod_one, hne])]
        show some (("" : String) ++ w) = some w
        rw [String.ext (by rw [String.data_append]; rfl : (("" : String) ++ w).data = w.data)]
      rw [hparts, Option.some_bind,
        if_neg (by simp [endsWithHyphen_false_of_not_mem hnh,
          startsWithDigit_false_of_not_contains hdig])]
    show List.filterMap _ (shuffleArray choices (List.range 1)) = [w]
    rw [show shuffleArray choices (List.range 1) = [0] from rfl]
    simp [List.filterMap_cons, hdecode]
  · intro hdig
    rw [generateCombinations_eq]
    rw [List.filterMap_eq_nil_iff]
    intro a _
    unfold decodeIndex
    have hparts : decodeParts
        [({ type := "literal", value := some v, possibilities := [w] } : PatternPart)]
          a "" "" = none := by
      rw [decodeParts_cons, if_pos]
      simp [partUnit, Nat.mod_one, hdig]
    rw [hparts]
    rfl

/-- Witness for C9 (amended): the digit-free literal pattern `"foo"`
generates exactly its own text. -/
theorem literal_atomic_pruning_witness :
    parsePattern "foo" =
        [{ type := "literal", value := some "foo", possibilities := ["foo"] }] ∧
      containsDigit "foo" = false ∧
      generateCombinations (parsePattern "foo") (fun _ => 0) = ["foo"] :=
  ⟨by decide, by decide,
    (literal_atomic_pruning "foo" (fun _ => 0) "foo" "foo" (by decide)).1 (by decide)⟩

/-- C10: a pattern whose first parsed segment is a literal containing a
digit anywhere generates nothing for every shuffle outcome (the digit
regex is applied to the whole literal unit), while `validatePattern`
accepts such patterns and `analyzePattern` still reports a positive
combination count — e.g. `"a1cc"` analyzes to 400 combinations yet
generates zero candidates. -/
theorem first_literal_digit_kills_generation :
    (∀ (p : String) (choices : Nat → Nat) (v w : String) (rest : List PatternPart),
        parsePattern p =
          { type := "literal", value := some v, possibilities := [w] } :: rest →
        containsDigit w = true →
        generateCombinations (parsePattern p) choices = []) ∧
      validatePattern "a1cc" = none ∧
      combinationsOf { pattern := "a1cc", extensions := [".com"] } = 400 ∧
      generateCombinations (parsePattern "a1cc") (fun _ => 0) = [] := by
  have huni : ∀ (p : String) (choices : Nat → Nat) (v w : String) (rest : List PatternPart),
      parsePattern p =
        { type := "literal", value := some v, possibilities := [w] } :: rest →
      containsDigit w = true →
      generateCombinations (parsePattern p) choices = [] := by
    intro p choices v w rest hp hdig
    rw [hp, generateCombinations_eq, List.filterMap_eq_nil_iff]
    intro a _
    unfold decodeIndex
    have hparts : decodeParts
        (({ type := "literal", value := some v, possibilities := [w] } : PatternPart) :: rest)
          a "" "" = none := by
      rw [decodeParts_cons, if_pos]
      simp [partUnit, Nat.mod_one, hdig]
    rw [hparts]
    rfl
  exact ⟨huni, by decide, by decide,
    huni "a1cc" (fun _ => 0) "a1" "a1"
      [{ type := "c", possibilities := CONSONANTS },
       { type := "c", possibilities := CONSONANTS }] (by decide) (by decide)⟩

/-- Witness for C10 at another concrete pattern, `"b2c"`. -/
theorem first_literal_digit_kills_generation_witness :
    parsePattern "b2c" =
        ({ type := "literal", value := some "b2", possibilities := ["b2"] } :
          PatternPart) :: [{ type := "c", possibilities := CONSONANTS }] ∧
      containsDigit "b2" = true ∧
      generateCombinations (parsePattern "b2c") (fun _ => 7) = [] :=
  ⟨by decide, by decide,
    first_literal_digit_kills_generation.1 "b2c" (fun _ => 7) "b2" "b2"
      [{ type := "c", possibilities := CONSONANTS }] (by decide) (by decide)⟩

/-! ## Claim C8 -/

theorem validateExtensionsGo_eq (exts : List String)
    (h : ∀ ext ∈ exts, startsWithDot ext = true ∧ 2 ≤ ext.length) :
    validateExtensionsGo exts =
      match exts.find? (fun ext => !extensionFormatOk ext) with
      | some ext => some ("Invalid extension format: " ++ ext)
      | none => none := by
  induction exts with
  | nil => rfl
  | cons ext rest ih =>
    obtain ⟨hdot, hlen⟩ := h ext (List.mem_cons_self _ _)
    show (if !startsWithDot ext then some ("Extension must start with dot: " ++ ext)
      else if ext.length < 2 then some ("Extension too short: " ++ ext)
      else if !extensionFormatOk ext then some ("Invalid extension format: " ++ ext)
      else validateExtensionsGo rest) = _
    rw [hdot, if_neg (by simp), if_neg (by omega)]
    cases hfmt : extensionFormatOk ext with
    | false =>
      rw [if_pos (by simp [hfmt]), List.find?_cons_of_pos _ (by simp [hfmt])]
    | true =>
      rw [if_neg (by simp [hfmt]), List.find?_cons_of_neg _ (by simp [hfmt])]
      exact ih (fun e he => h e (List.mem_cons_of_mem _ he))

/-- C8 counterexample: `".co.uk"` fails the claim's regex `^\.[a-z0-9]+$`
(second dot), yet `validateExtensions` accepts it — the code's character
class is `[.a-z0-9]`, which allows dots at any position. -/
theorem validateExtensions_accepts_second_dot :
    validateExtensions [".co.uk"] = none ∧ specExtensionRegex ".co.uk" = false :=
  ⟨by decide, by decide⟩

/-- C8 amended: for extension lists whose elements all start with `.` and
have length at least 2, `validateExtensions` returns the
`InvalidExtensionFormat` error for the first element failing the code's
regex `^[.a-z0-9]+$` (dots allowed anywhere, so `".co.uk"` passes while
`".COM"` fails), and returns `null` exactly when the list is nonempty and
every element matches that regex. -/
theorem validateExtensions_code_regex (exts : List String)
    (h : ∀ ext ∈ exts, startsWithDot ext = true ∧ 2 ≤ ext.length) :
    (∀ pre ext post, exts = pre ++ ext :: post →
        (∀ e ∈ pre, extensionFormatOk e = true) → extensionFormatOk ext = false →
        validateExtensions exts = some ("Invalid extension format: " ++ ext)) ∧
      (validateExtensions exts = none ↔
        exts ≠ [] ∧ ∀ ext ∈ exts, extensionFormatOk ext = true) := by
  constructor
  · intro pre ext post hsplit hpre hext
    subst hsplit
    unfold validateExtensions
    rw [if_neg (by simp), validateExtensionsGo_eq _ h, List.find?_append]
    have hpre_none : (pre.find? fun e => !extensionFormatOk e) = none :=
      List.find?_eq_none.mpr (fun x hx => by simp [hpre x hx])
    rw [hpre_none, Option.none_or, List.find?_cons_of_pos _ (by simp [hext])]
  · unfold validateExtensions
    cases exts with
    | nil => simp
    | cons e rest =>
      rw [if_neg (by simp), validateExtensionsGo_eq _ h]
      cases hf : (e :: rest).find? (fun ext => !extensionFormatOk ext) with
      | some x =>
        simp only [hf]
        constructor
        · intro hcontra
          simp at hcontra
        · rintro ⟨-, hall⟩
          have hx := List.find?_some hf
          have hxmem := List.mem_of_find?_eq_some hf
          rw [hall x hxmem] at hx
          simp at hx
      | none =>
        simp only [hf]
        constructor
        · intro _
          refine ⟨by simp, ?_⟩
          intro ext hext
          have hne := List.find?_eq_none.mp hf ext hext
          simpa using hne
        · intro _
          trivial

/-- Witness for C8 (amended) at `[".com", ".COM"]`: the first
format-failing element `".COM"` is reported. -/
theorem validateExtensions_code_regex_witness :
    (∀ ext ∈ [".com", ".COM"], startsWithDot ext = true ∧ 2 ≤ ext.length) ∧
      validateExtensions [".com", ".COM"] = some "Invalid extension format: .COM" :=
  ⟨by decide,
    (validateExtensions_code_regex [".com", ".COM"] (by decide)).1 [".com"] ".COM" []
      rfl (by decide) (by decide)⟩

/-! ## Claim C3 -/

theorem bitLenGo_le (fuel k n : Nat) (h : n < 2 ^ k) : bitLenGo fuel n ≤ k := by
  induction fuel generalizing k n with
  | zero => exact Nat.zero_le k
  | succ fuel ih =>
    by_cases hn : n = 0
    · simp [bitLenGo, hn]
    · rw [bitLenGo, if_neg hn]
      have hk : k ≠ 0 := by
        intro hk0
        rw [hk0, pow_zero] at h
        omega
      obtain ⟨k2, rfl⟩ : ∃ k2, k = k2 + 1 := ⟨k - 1, by omega⟩
      have hdiv : n / 2 < 2 ^ k2 := by
        rw [Nat.div_lt_iff_lt_mul (by omega)]
        calc n < 2 ^ (k2 + 1) := h
          _ = 2 ^ k2 * 2 := by ring
      exact Nat.succ_le_succ (ih k2 (n / 2) hdiv)

theorem fl53_eq_self {n : Nat} (h : n < 2 ^ 53) : fl53 n = n := by
  unfold fl53
  rw [if_pos]
  exact bitLenGo_le 1100 53 n h

theorem foldl_flMul_parts (parts : List PatternPart) (acc : Nat)
    (h : safeProducts acc (parts.map (fun part => part.possibilities.length)) = true) :
    parts.foldl (fun a part => flMul a part.possibilities.length) acc =
      parts.foldl (fun a part => a * part.possibilities.length) acc := by
  induction parts generalizing acc with
  | nil => rfl
  | cons part restParts ih =>
    simp only [List.map_cons, safeProducts, Bool.and_eq_true, decide_eq_true_eq] at h
    rw [List.foldl_cons, List.foldl_cons,
      show flMul acc part.possibilities.length = acc * part.possibilities.length from
        fl53_eq_self h.1]
    exact ih _ h.2

/-- C3 counterexample: the pattern of 15 `l` segments analyzes (in the
code's binary64 arithmetic) to a combination count that differs from the
exact product `26 ^ 15` — the last multiplication rounds. -/
theorem analyzePattern_loses_precision :
    combinationsOf { pattern := "lllllllllllllll", extensions := [".com"] } =
        1677259342285726023680 ∧
      exactCombinations (parsePattern "lllllllllllllll") = 1677259342285725925376 ∧
      combinationsOf { pattern := "lllllllllllllll", extensions := [".com"] } ≠
        exactCombinations (parsePattern "lllllllllllllll") :=
  ⟨by decide, by decide, by decide⟩

/-- C3 amended: for every pattern and extension list passing validation
whose running alphabet-length products (and the final product with the
extension count) stay below `2 ^ 53`, `analyzePattern` returns exactly the
mathematical product and its multiple — in particular `"ll"` with three
extensions yields 676 and 2028; beyond `2 ^ 53` the binary64
multiplications round. -/
theorem analyzePattern_exact_when_safe (p : String) (exts : List String)
    (hv : validatePattern p = none) (he : validateExtensions exts = none)
    (hsafe : safeProducts 1 ((parsePattern p).map (fun part => part.possibilities.length)) = true)
    (htot : exactCombinations (parsePattern p) * exts.length < 2 ^ 53) :
    analyzePattern { pattern := p, extensions := exts } =
      .ok { pattern := p, extensions := exts,
            combinations := exactCombinations (parsePattern p),
            totalDomains := exactCombinations (parsePattern p) * exts.length,
            parts := parsePattern p, comment := none } := by
  simp only [analyzePattern, hv, he]
  have hcomb : (parsePattern p).foldl (fun acc part => flMul acc part.possibilities.length) 1 =
      exactCombinations (parsePattern p) := foldl_flMul_parts _ 1 hsafe
  rw [hcomb, show flMul (exactCombinations (parsePattern p)) exts.length =
    exactCombinations (parsePattern p) * exts.length from fl53_eq_self htot]

/-- Witness for C3 (amended): `"ll"` with `[".com", ".net", ".org"]`
analyzes exactly to 676 combinations and 2028 total domains. -/
theorem analyzePattern_exact_when_safe_witness :
    validatePattern "ll" = none ∧ validateExtensions [".com", ".net", ".org"] = none ∧
      safeProducts 1 ((parsePattern "ll").map (fun part => part.possibilities.length)) = true ∧
      exactCombinations (parsePattern "ll") * ([".com", ".net", ".org"] : List String).length <
        2 ^ 53 ∧
      exactCombinations (parsePattern "ll") = 676 ∧
      exactCombinations (parsePattern "ll") * ([".com", ".net", ".org"] : List String).length =
        2028 ∧
      analyzePattern { pattern := "ll", extensions := [".com", ".net", ".org"] } =
        .ok { pattern := "ll", extensions := [".com", ".net", ".org"],
              combinations := exactCombinations (parsePattern "ll"),
              totalDomains :=
                exactCombinations (parsePattern "ll") * ([".com", ".net", ".org"] : List String).length,
              parts := parsePattern "ll", comment := none } :=
  ⟨by decide, by decide, by decide, by decide, by decide, by decide,
    analyzePattern_exact_when_safe "ll" [".com", ".net", ".org"]
      (by decide) (by decide) (by decide) (by decide)⟩

end WhoisBun
